import Mathlib

/-!
Verification of the search core of `src/stock_api.py` (a FastAPI stock-search
service over a flat SQLite catalog).  The Python functions are shallowly
embedded as executable Lean definitions:

* text cells of the catalog are `Cell` (SQL NULL, TEXT, INTEGER);
* the Persian text normalizer `normalize_persian` / `normalize_query`;
* the price / quantity parsers `parse_price` / `qtyValueOfCell`;
* the intent contract (`SearchIntent` with its nested filter records);
* the SQL builder `build_sql`, embedded as the ordered list of AND-ed
  WHERE clauses it emits (`WClause`), together with their SQLite row
  semantics (`rowMatchesW`);
* the `/search` pipeline: primary fetch, fuzzy name fallback, display
  normalization, price post-filter, category tally, ranking, truncation.

External pure string-similarity libraries (`difflib.SequenceMatcher.ratio`
and `rapidfuzz.fuzz.partial_ratio`) are modelled as abstract rational-valued
function parameters; Python floats are idealized as rationals.
-/

namespace StockApi

/-! ### Characters and Python-style character classes -/

/-- U+200C ZERO WIDTH NON-JOINER (`"‌"` in the source). -/
def zwnjChar : Char := Char.ofNat 0x200C

/-- U+0640 ARABIC TATWEEL (`"ـ"` in the source). -/
def tatweelChar : Char := Char.ofNat 0x0640

/-- U+064A ARABIC LETTER YEH (the mapping key `"ي"`). -/
def arabicYeh : Char := Char.ofNat 0x064A

/-- U+06CC ARABIC LETTER FARSI YEH (the mapping value `"ی"`). -/
def farsiYeh : Char := Char.ofNat 0x06CC

/-- U+0643 ARABIC LETTER KAF (the mapping key `"ك"`). -/
def arabicKaf : Char := Char.ofNat 0x0643

/-- U+06A9 ARABIC LETTER KEHEH (the mapping value `"ک"`). -/
def farsiKaf : Char := Char.ofNat 0x06A9

/-- U+061F ARABIC QUESTION MARK, removed by `normalize_query`. -/
def arabicQM : Char := Char.ofNat 0x061F

/-- U+066C ARABIC THOUSANDS SEPARATOR (`"٬"`), removed by `parse_price`. -/
def arabicThousands : Char := Char.ofNat 0x066C

/-- The whitespace class of Python's `re` pattern `\s` / `str.strip()` on
`str` values (Unicode whitespace). -/
def pyIsSpace (c : Char) : Bool :=
  c = ' ' || c = '\t' || c = '\n' || c.val = 13 || c.val = 11 || c.val = 12 ||
  (28 ≤ c.val && c.val ≤ 31) || c.val = 0x85 || c.val = 0xA0 || c.val = 0x1680 ||
  (0x2000 ≤ c.val && c.val ≤ 0x200A) || c.val = 0x2028 || c.val = 0x2029 ||
  c.val = 0x202F || c.val = 0x205F || c.val = 0x3000

/-- Decimal digits matched by Python's `\d` and accepted by `int()`,
restricted to the three ranges that can occur in this catalog's data:
ASCII `0-9`, Arabic-Indic U+0660–U+0669 and Extended Arabic-Indic
U+06F0–U+06F9 (Python matches all of Unicode category Nd; the extra
ranges never occur here). Returns the digit value. -/
def digitVal? (c : Char) : Option Nat :=
  if '0' ≤ c && c ≤ '9' then some (c.toNat - 48)
  else if 0x660 ≤ c.val && c.val ≤ 0x669 then some (c.toNat - 0x660)
  else if 0x6F0 ≤ c.val && c.val ≤ 0x6F9 then some (c.toNat - 0x6F0)
  else none

/-- Python's `\d` restricted as in `digitVal?`. -/
def pyIsDigit (c : Char) : Bool := (digitVal? c).isSome

/-- Value of an all-digit character list, as computed by Python `int()`. -/
def digitsVal (l : List Char) : Nat :=
  l.foldl (fun acc c => 10 * acc + ((digitVal? c).getD 0)) 0

/-! ### re.sub(r"\s+", " ", s) and str.strip() on character lists -/

/-- `re.sub(r"\s+", " ", s)`: replace every maximal whitespace run by a
single ASCII space. -/
def collapseWs : List Char → List Char
  | [] => []
  | [c] => if pyIsSpace c then [' '] else [c]
  | c :: d :: rest =>
    if pyIsSpace c && pyIsSpace d then collapseWs (d :: rest)
    else (if pyIsSpace c then ' ' else c) :: collapseWs (d :: rest)

/-- Python `str.strip()`: drop leading and trailing whitespace. -/
def pyStrip (l : List Char) : List Char :=
  ((l.dropWhile pyIsSpace).reverse.dropWhile pyIsSpace).reverse

/-- Python `str.strip()` on a `String`. -/
def pyStripStr (s : String) : String := String.mk (pyStrip s.toList)

/-! ### normalize_persian / normalize_query -/

/-- The per-character effect of the sequential `str.replace` calls in
`normalize_persian`: `"ي"→"ی"`, `"ك"→"ک"`, ZWNJ→`" "` (listed twice in the
source dict, the second entry is the same codepoint), tatweel→`""`.
No mapping value is a later mapping key, so the replace chain acts
character-wise. -/
def mapChar (c : Char) : List Char :=
  if c = arabicYeh then [farsiYeh]
  else if c = arabicKaf then [farsiKaf]
  else if c = zwnjChar then [' ']
  else if c = tatweelChar then []
  else [c]

/-- Core of `normalize_persian` on character lists: apply the replace map,
then `re.sub(r"\s+", " ", s).strip()`. -/
def normCore (l : List Char) : List Char :=
  pyStrip (collapseWs (l.flatMap mapChar))

/-- `normalize_persian` on text input (`None` input is handled at the
`Cell` level by `normCell`). -/
def normalize_persian (s : String) : String := String.mk (normCore s.toList)

/-- `normalize_query`: on a non-empty string, strip, remove `؟` and `?`,
collapse whitespace runs, then `normalize_persian`; the empty (falsy)
string is returned unchanged. -/
def normalize_query (s : String) : String :=
  if s = "" then ""
  else
    normalize_persian (String.mk
      (collapseWs ((pyStrip s.toList).filter (fun c => !(c = arabicQM || c = '?')))))

/-! ### Catalog cells and parsers -/

/-- A SQLite cell as seen through `sqlite3.Row`: NULL, TEXT or INTEGER
(the float case of `parse_price` never occurs for TEXT-affinity columns
and is not modelled). -/
inductive Cell where
  | vnull : Cell
  | vstr (s : String) : Cell
  | vint (n : Int) : Cell
deriving DecidableEq, Repr

/-- `parse_price`: `None → None`; numbers are returned as `int`; a string
is cleaned by removing `","`, `"٬"` and `" "`, stripped, then all
remaining non-digit characters are deleted (`re.sub(r"[^\d]+", "", s)`);
an empty remainder is `None`, otherwise the digit string's `int()` value. -/
def parse_price : Cell → Option Int
  | .vnull => none
  | .vint n => some n
  | .vstr s =>
    let s1 := s.toList.filter (fun c => !(c = ',' || c = arabicThousands || c = ' '))
    let s2 := pyStrip s1
    let s3 := s2.filter pyIsDigit
    if s3.isEmpty then none else some (digitsVal s3)

/-- The spec's reading of price parsing, for comparison with
`parse_price`: strip thousands separators, currency noise and non-digit
characters, keep only the leading run of digits, return that run as an
integer; no digits means no price. -/
def spec_parse_price (s : String) : Option Int :=
  let cleaned := s.toList.filter pyIsDigit
  let run := cleaned.takeWhile pyIsDigit
  if run.isEmpty then none else some (digitsVal run)

/-- Python `int(str)`: optional sign, then a non-empty digit string
(surrounding whitespace allowed; numeric-literal underscores never occur
in this catalog and are not modelled). `none` models the `ValueError`. -/
def pyIntOfString (s : String) : Option Int :=
  let l := pyStrip s.toList
  match l with
  | '-' :: rest =>
    if rest ≠ [] && rest.all pyIsDigit then some (-(digitsVal rest : Int)) else none
  | '+' :: rest =>
    if rest ≠ [] && rest.all pyIsDigit then some (digitsVal rest : Int) else none
  | rest =>
    if rest ≠ [] && rest.all pyIsDigit then some (digitsVal rest : Int) else none

/-- `d["qty_value"] = int(d.get("qty")) if d.get("qty") is not None else None`,
with the `except → None` guard. -/
def qtyValueOfCell : Cell → Option Int
  | .vnull => none
  | .vint n => some n
  | .vstr s => pyIntOfString s

/-- `str(cell)` as used after a NULL guard (display/text positions);
`normalize_persian(None)` is `""` in the source, so NULL becomes `""`. -/
def cellText : Cell → String
  | .vnull => ""
  | .vstr s => s
  | .vint n => toString n

/-- `normalize_persian(d.get(col))` with the source's `None → ""` branch. -/
def normCell (c : Cell) : String := normalize_persian (cellText c)

/-- Python's `x or ""` followed by text use (`r["name"] or ""`): falsy
values (`None`, `""`, `0`) become `""`. -/
def cellTextOrEmpty : Cell → String
  | .vnull => ""
  | .vstr s => s
  | .vint n => if n = 0 then "" else toString n

/-- ASCII lowering, Python `str.lower()` (identity on the Persian range). -/
def asciiLower (s : String) : String := String.mk (s.toList.map Char.toLower)

/-- Python substring test `k in q`. -/
def strContains (q k : String) : Bool :=
  (q.toList.tails).any (fun t => k.toList.isPrefixOf t)

/-! ### Catalog rows

A row as produced by the `SELECT ... AS ...` list of both queries in the
source: the ten aliased fields. -/

structure Row where
  name : Cell
  qty : Cell
  price : Cell
  category_code : Cell
  author_or_type_or_age : Cell
  translator_or_playtime : Cell
  publisher_or_brand : Cell
  group_main : Cell
  system_code : Cell
  groupfamily : Cell
deriving DecidableEq, Repr

/-- The searchable columns referenced by WHERE clauses. -/
inductive Col where
  | name | author | translator | publisher | group | groupfamily | cat
deriving DecidableEq, Repr

/-- Column lookup on a row (through the SELECT aliases). -/
def Row.get : Row → Col → Cell
  | r, .name => r.name
  | r, .author => r.author_or_type_or_age
  | r, .translator => r.translator_or_playtime
  | r, .publisher => r.publisher_or_brand
  | r, .group => r.group_main
  | r, .groupfamily => r.groupfamily
  | r, .cat => r.category_code

/-! ### The SearchIntent contract (pydantic models) -/

/-- `category_code: Optional[Union[str, List[str]]]`. -/
inductive CatCode where
  | single (s : String) : CatCode
  | multi (l : List String) : CatCode
deriving DecidableEq, Repr

/-- `TextFilter` (`inc`/`exc` stand for the Python fields
`include`/`exclude`; `include` is a Lean keyword). -/
structure TextFilter where
  inc : List String := []
  exc : List String := []
deriving DecidableEq, Repr

structure GroupFamilyTags where
  include_all : List String := []
  include_any : List String := []
  exclude : List String := []
deriving DecidableEq, Repr

structure PriceFilter where
  min : Option Int := none
  max : Option Int := none
deriving DecidableEq, Repr

structure StockFilter where
  in_stock_only : Option Bool := none
deriving DecidableEq, Repr

structure Filters where
  name : TextFilter := {}
  author_or_type_or_age : TextFilter := {}
  translator_or_playtime : TextFilter := {}
  publisher_or_brand : TextFilter := {}
  group_main : TextFilter := {}
  groupfamily_tags : GroupFamilyTags := {}
  price : PriceFilter := {}
  stock : StockFilter := {}
deriving DecidableEq, Repr

inductive SortKey where
  | relevance | price | qty
deriving DecidableEq, Repr

inductive SortDir where
  | asc | desc
deriving DecidableEq, Repr

structure SortSpec where
  sortBy : SortKey := .relevance
  direction : SortDir := .desc
deriving DecidableEq, Repr

/-- `SearchIntent` (the unread `ui` sub-model is omitted). -/
structure SearchIntent where
  version : String := "1.0"
  category_code : Option CatCode := none
  uploaded_only : Bool := true
  query_text : String := ""
  filters : Filters := {}
  sort : SortSpec := {}
  limit : Int := 10
  debug : Bool := false
deriving DecidableEq, Repr

/-- Python truthiness of `intent.category_code`
(`None`, `""` and `[]` are falsy). -/
def catTruthy : Option CatCode → Bool
  | none => false
  | some (.single s) => s ≠ ""
  | some (.multi l) => !l.isEmpty

/-! ### The compiled predicate (build_sql)

`build_sql` is embedded as the ordered list of WHERE clauses it appends,
with the bound parameters folded into each clause; this is the
"CompiledPredicate" of the spec.  Each constructor corresponds verbatim
to one SQL fragment produced by the source. -/

inductive WClause where
  /-- `"col" IS NOT NULL` -/
  | isNotNull (c : Col) : WClause
  /-- `TRIM("col") != ""` -/
  | trimNotEmpty (c : Col) : WClause
  /-- `"cat" = ?` with one bound category code -/
  | catEq (v : String) : WClause
  /-- `"cat" IN (?, ...)` with the bound category codes -/
  | catIn (vs : List String) : WClause
  /-- `("col" LIKE ? OR "col" LIKE ? ...)`, one pattern per expanded term -/
  | likeAny (c : Col) (pats : List String) : WClause
  /-- `"col" LIKE ?` (a single groupfamily `include_all` condition) -/
  | likeOne (c : Col) (pat : String) : WClause
  /-- `("col" IS NULL OR "col" NOT LIKE ?)` -/
  | notLike (c : Col) (pat : String) : WClause
  /-- the free-text clause `("c1" LIKE ? OR ... OR "c6" LIKE ?)`,
  the same pattern bound once per column -/
  | likeAcross (cs : List Col) (pat : String) : WClause
deriving DecidableEq, Repr

/-- `like_pattern`. -/
def like_pattern (term : String) : String := "%" ++ term ++ "%"

/-- SQLite `LIKE` pattern matching (`%`/`_` wildcards, ASCII
case-insensitive), with explicit fuel: every step consumes a pattern or a
subject character, so `p.length + s.length + 1` units always suffice. -/
def likeFuel : Nat → List Char → List Char → Bool
  | 0, _, _ => false
  | fuel + 1, p, s =>
    match p, s with
    | [], s => s.isEmpty
    | '%' :: p', [] => likeFuel fuel p' []
    | '%' :: p', c :: s' => likeFuel fuel p' (c :: s') || likeFuel fuel ('%' :: p') s'
    | '_' :: _, [] => false
    | '_' :: p', _ :: s' => likeFuel fuel p' s'
    | _ :: _, [] => false
    | c :: p', d :: s' => (c.toLower = d.toLower) && likeFuel fuel p' s'

/-- `pattern LIKE subject` with sufficient fuel. -/
def likeCore (p s : List Char) : Bool :=
  likeFuel (p.length + s.length + 1) p s

/-- `cell LIKE pattern`: NULL never matches; numeric cells compare through
their text image. -/
def cellLike (pat : String) : Cell → Bool
  | .vnull => false
  | .vstr s => likeCore pat.toList s.toList
  | .vint n => likeCore pat.toList (toString n).toList

/-- `cell = 'v'` for a bound text parameter: only a TEXT cell with the
same content compares equal in SQLite (NULL and INTEGER never do). -/
def cellEqStr (v : String) : Cell → Bool
  | .vstr s => s = v
  | _ => false

/-- SQLite `TRIM` (strips ASCII spaces only). -/
def sqlTrim (s : String) : String :=
  String.mk (((s.toList.dropWhile (· = ' ')).reverse.dropWhile (· = ' ')).reverse)

/-- `TRIM("col") != ""` on a cell: NULL yields SQL NULL (not true). -/
def cellTrimNotEmpty : Cell → Bool
  | .vnull => false
  | .vstr s => sqlTrim s ≠ ""
  | .vint _ => true

/-- Row semantics of one compiled clause. -/
def rowMatchesW (r : Row) : WClause → Bool
  | .isNotNull c => r.get c ≠ .vnull
  | .trimNotEmpty c => cellTrimNotEmpty (r.get c)
  | .catEq v => cellEqStr v (r.get .cat)
  | .catIn vs => vs.any (fun v => cellEqStr v (r.get .cat))
  | .likeAny c pats => pats.any (fun p => cellLike p (r.get c))
  | .likeOne c pat => cellLike pat (r.get c)
  | .notLike c pat => r.get c = .vnull || !cellLike pat (r.get c)
  | .likeAcross cs pat => cs.any (fun c => cellLike pat (r.get c))

/-- AND of all compiled clauses (`" AND ".join(where)`; no clauses = `1=1`). -/
def matchesAll (cls : List WClause) (r : Row) : Bool :=
  cls.all (rowMatchesW r)

/-! ### build_sql -/

/-- The `uploaded_only` block: `GroupFamily IS NOT NULL` and
`TRIM(GroupFamily) != ""`. -/
def uploadedClauses (i : SearchIntent) : List WClause :=
  if i.uploaded_only then [.isNotNull .groupfamily, .trimNotEmpty .groupfamily] else []

/-- The normalized category list before auto-expansion:
list input keeps `[normalize_persian(c).strip().lower() for c in codes if str(c).strip()]`,
string input yields the one-element `[normalize_persian(cc).strip().lower()]`. -/
def rawCats (i : SearchIntent) : List String :=
  match i.category_code with
  | none => []
  | some (.single s) => [asciiLower (pyStripStr (normalize_persian s))]
  | some (.multi l) =>
    l.filterMap (fun c =>
      if pyStripStr c = "" then none
      else some (asciiLower (pyStripStr (normalize_persian c))))

/-- The fixed pen/gift/luxury-writing keyword list of `build_sql`. -/
def pen_keywords : List String :=
  ["خودکار", "خودنویس", "روان نویس", "هدیه", "قلم", "نفیس", "لاکچری"]

/-- `any(k in q for k in pen_keywords)` over
`q = normalize_persian(intent.query_text or "")`. -/
def penKeywordHit (i : SearchIntent) : Bool :=
  pen_keywords.any (fun k => strContains (normalize_persian i.query_text) k)

/-- The category block of `build_sql`: guarded by truthiness of
`category_code`; the `["s"] → ["s", "l"]` auto-expansion; a single code
compiles to `=`, several to `IN`. -/
def catClauses (i : SearchIntent) : List WClause :=
  if catTruthy i.category_code then
    let cats := rawCats i
    let cats := if cats = ["s"] && penKeywordHit i then ["s", "l"] else cats
    match cats with
    | [c] => [.catEq c]
    | cs => [.catIn cs]
  else []

/-- The loaded `brand_aliases.json` mapping: an association list
(canonical brand, alias list) in dict insertion order. -/
abbrev AliasMap := List (String × List String)

/-- The normalized term group of one alias-map entry, as compared against
inside `expand_brand_terms`. -/
def normGroup (e : String × List String) : List String :=
  (e.1 :: e.2).map (fun x => asciiLower (normalize_persian x))

/-- `expand_brand_terms`: scan the map in order for the first entry whose
normalized+lowered group contains the normalized+lowered term; return the
entry's raw `[canonical] + aliases`, else the singleton `[user_term]`. -/
def expand_brand_terms (am : AliasMap) (user_term : String) : List String :=
  let t_norm := asciiLower (normalize_persian user_term)
  match am.find? (fun e => t_norm ∈ normGroup e) with
  | some e => e.1 :: e.2
  | none => [user_term]

/-- The include half of `apply_text_filter`: one OR clause per non-empty
normalized include term, brand expansion applying only to the publisher
column when the alias map is non-empty. -/
def includeClauses (am : AliasMap) (col : Col) (ts : List String) : List WClause :=
  ts.filterMap (fun t =>
    let t := normalize_persian t
    if t = "" then none
    else
      let terms := if col = .publisher && !am.isEmpty then expand_brand_terms am t else [t]
      some (.likeAny col (terms.map (fun term => like_pattern (normalize_persian term)))))

/-- The exclude half of `apply_text_filter`: one null-safe NOT LIKE per
non-empty normalized exclude term. -/
def excludeClauses (col : Col) (ts : List String) : List WClause :=
  ts.filterMap (fun t =>
    let t := normalize_persian t
    if t = "" then none else some (.notLike col (like_pattern t)))

/-- `apply_text_filter(col, tf)`: includes first, then excludes. -/
def applyTextFilter (am : AliasMap) (col : Col) (tf : TextFilter) : List WClause :=
  includeClauses am col tf.inc ++ excludeClauses col tf.exc

/-- The groupfamily-tags block: `include_all` (one LIKE per term), then
`include_any` (one OR block), then `exclude`. -/
def gfClauses (gf : GroupFamilyTags) : List WClause :=
  (gf.include_all.filterMap (fun t =>
    let t := normalize_persian t
    if t = "" then none else some (.likeOne .groupfamily (like_pattern t)))) ++
  (let any_terms := (gf.include_any.map normalize_persian).filter (· ≠ "")
   if any_terms.isEmpty then []
   else [.likeAny .groupfamily (any_terms.map like_pattern)]) ++
  (gf.exclude.filterMap (fun t =>
    let t := normalize_persian t
    if t = "" then none else some (.notLike .groupfamily (like_pattern t))))

/-- `user_filters_present` (note: `category_code is not None`, not
truthiness). -/
def userFiltersPresent (i : SearchIntent) : Bool :=
  i.category_code.isSome ||
  !(i.filters.name.inc.isEmpty && i.filters.name.exc.isEmpty) ||
  !(i.filters.author_or_type_or_age.inc.isEmpty && i.filters.author_or_type_or_age.exc.isEmpty) ||
  !(i.filters.translator_or_playtime.inc.isEmpty && i.filters.translator_or_playtime.exc.isEmpty) ||
  !(i.filters.publisher_or_brand.inc.isEmpty && i.filters.publisher_or_brand.exc.isEmpty) ||
  !(i.filters.group_main.inc.isEmpty && i.filters.group_main.exc.isEmpty) ||
  !(i.filters.groupfamily_tags.include_all.isEmpty &&
    i.filters.groupfamily_tags.include_any.isEmpty &&
    i.filters.groupfamily_tags.exclude.isEmpty)

/-- The six display columns of the free-text fallback clause. -/
def freeTextCols : List Col :=
  [.name, .author, .translator, .publisher, .group, .groupfamily]

/-- The free-text fallback clause, added only when no structured filter
was supplied and the normalized query is non-empty. -/
def freeTextClauses (i : SearchIntent) : List WClause :=
  let qtext := normalize_query i.query_text
  if qtext ≠ "" && !userFiltersPresent i then
    [.likeAcross freeTextCols (like_pattern qtext)]
  else []

/-- `build_sql`: the WHERE clauses in source append order (the SELECT
list and `LIMIT 1200` live in `fetchPrimary`). -/
def build_sql (am : AliasMap) (i : SearchIntent) : List WClause :=
  uploadedClauses i ++
  catClauses i ++
  applyTextFilter am .name i.filters.name ++
  applyTextFilter am .author i.filters.author_or_type_or_age ++
  applyTextFilter am .translator i.filters.translator_or_playtime ++
  applyTextFilter am .publisher i.filters.publisher_or_brand ++
  applyTextFilter am .group i.filters.group_main ++
  gfClauses i.filters.groupfamily_tags ++
  freeTextClauses i

/-- The primary fetch: the catalog (an arbitrary row list, in the store's
return order) filtered by the compiled predicate, `LIMIT 1200`. -/
def fetchPrimary (am : AliasMap) (db : List Row) (i : SearchIntent) : List Row :=
  (db.filter (matchesAll (build_sql am i))).take 1200

/-! ### Fuzzy name fallback -/

/-- The name seed: `normalize_query(include[0])` when the name filter's
include list is non-empty, else the (already normalized) query text. -/
def nameSeed (i : SearchIntent) : String :=
  match i.filters.name.inc with
  | t :: _ => normalize_query t
  | [] => i.query_text

/-- The fallback candidate WHERE clauses: `uploaded_only` and, when
`category_code` is truthy and resolves to a non-empty list, a single
`IN` clause over `rawCats` (no pen-keyword expansion here). -/
def fallbackClauses (i : SearchIntent) : List WClause :=
  uploadedClauses i ++
  (if catTruthy i.category_code then
     let cats := rawCats i
     if cats.isEmpty then [] else [.catIn cats]
   else [])

/-- The fallback candidate fetch, `LIMIT 2500`. -/
def fallbackCands (db : List Row) (i : SearchIntent) : List Row :=
  (db.filter (matchesAll (fallbackClauses i))).take 2500

/-- `similarity(a, b)` from the source:
`difflib.SequenceMatcher(None, normalize_persian(a), normalize_persian(b)).ratio()`,
with the external `ratio` left abstract (a rational-valued parameter). -/
def similarity (ratio : String → String → ℚ) (a b : String) : ℚ :=
  ratio (normalize_persian a) (normalize_persian b)

/-- The scored fuzzy matches: skip candidates whose normalized name is
falsy, keep `(score, row)` when `score >= 0.72` (the float constant is
idealized as `72/100`). -/
def fuzzyScored (ratio : String → String → ℚ) (db : List Row) (i : SearchIntent)
    (seed : String) : List (ℚ × Row) :=
  (fallbackCands db i).filterMap (fun r =>
    let pname := normalize_query (cellTextOrEmpty r.name)
    if pname = "" then none
    else
      let score := similarity ratio seed pname
      if mkRat 72 100 ≤ score then some (score, r) else none)

/-- `fuzzy_matches.sort(key=lambda x: x[0], reverse=True)`: a stable
descending sort by score (Python's stable sort with a reversed total
preorder equals insertion sort with `b.1 ≤ a.1`). -/
def fuzzySorted (ratio : String → String → ℚ) (db : List Row) (i : SearchIntent)
    (seed : String) : List (ℚ × Row) :=
  (fuzzyScored ratio db i seed).insertionSort (fun a b => b.1 ≤ a.1)

/-- `rows = [r for _, r in fuzzy_matches[:1200]]`. -/
def fuzzyRows (ratio : String → String → ℚ) (db : List Row) (i : SearchIntent)
    (seed : String) : List Row :=
  ((fuzzySorted ratio db i seed).take 1200).map (·.2)

/-- The row set the pipeline continues with: the fuzzy fallback replaces
the primary rows exactly when the primary fetch is empty and the seed is
non-empty. -/
def searchRows (ratio : String → String → ℚ) (am : AliasMap) (db : List Row)
    (i : SearchIntent) : List Row :=
  if (fetchPrimary am db i).isEmpty && nameSeed i ≠ "" then
    fuzzyRows ratio db i (nameSeed i)
  else fetchPrimary am db i

/-! ### Display conversion, post-filter, scoring, ranking -/

/-- The per-request dict `d` built from a fetched row: normalized display
fields, raw `qty`/`price`/`system_code`, parsed `price_value`/`qty_value`
and the relevance score (`pratio` abstracts `rapidfuzz.fuzz.partial_ratio`). -/
structure Item where
  name : String
  author_or_type_or_age : String
  translator_or_playtime : String
  publisher_or_brand : String
  group_main : String
  groupfamily : String
  category_code : String
  qty : Cell
  price : Cell
  system_code : Cell
  price_value : Option Int
  qty_value : Option Int
  score : Int
deriving DecidableEq, Repr

/-- `passes_price_filter` (re-parses the raw price cell, as the source
does). -/
def passes_price_filter (i : SearchIntent) (d : Item) : Bool :=
  match i.filters.price.min, i.filters.price.max with
  | none, none => true
  | pmin, pmax =>
    match parse_price d.price with
    | none => false
    | some v =>
      (match pmin with | some m => !(v < m) | none => true) &&
      (match pmax with | some m => !(m < v) | none => true)

/-- Python `int()` truncation toward zero on a rational. -/
def pyTrunc (q : ℚ) : Int := if 0 ≤ q then ⌊q⌋ else -⌊-q⌋

/-- `compute_relevance_score`: 0 for an empty normalized query, else the
truncated maximum of the six weighted partial ratios (weights and field
order as in the source). -/
def compute_relevance_score (pratio : String → String → ℚ) (i : SearchIntent)
    (d : Item) : Int :=
  let q := normalize_query i.query_text
  if q = "" then 0
  else
    let s1 := pratio q (normalize_persian d.name)
    let s2 := pratio q (normalize_persian d.author_or_type_or_age)
    let s3 := pratio q (normalize_persian d.translator_or_playtime)
    let s4 := pratio q (normalize_persian d.publisher_or_brand)
    let s5 := pratio q (normalize_persian d.groupfamily)
    let s6 := pratio q (normalize_persian d.group_main)
    pyTrunc (max (max (max (max (max (mkRat 95 100 * s1) (mkRat 90 100 * s5))
      (mkRat 75 100 * s2)) (mkRat 65 100 * s3)) (mkRat 55 100 * s4))
      (mkRat 50 100 * s6))

/-- The conversion loop body for one row: normalized display copies,
`category_code` normalized+stripped+lowered, parsed price and quantity,
relevance score. -/
def mkItem (pratio : String → String → ℚ) (i : SearchIntent) (r : Row) : Item :=
  let d : Item := {
    name := normCell r.name
    author_or_type_or_age := normCell r.author_or_type_or_age
    translator_or_playtime := normCell r.translator_or_playtime
    publisher_or_brand := normCell r.publisher_or_brand
    group_main := normCell r.group_main
    groupfamily := normCell r.groupfamily
    category_code := asciiLower (pyStripStr (normCell r.category_code))
    qty := r.qty
    price := r.price
    system_code := r.system_code
    price_value := parse_price r.price
    qty_value := qtyValueOfCell r.qty
    score := 0 }
  { d with score := compute_relevance_score pratio i d }

/-- The kept items: conversion then the price post-filter (the source
interleaves both in one loop; the score of a dropped row is never
observable). -/
def searchItems (ratio pratio : String → String → ℚ) (am : AliasMap)
    (db : List Row) (i : SearchIntent) : List Item :=
  ((searchRows ratio am db i).map (mkItem pratio i)).filter (passes_price_filter i)

/-- `category_counts[cc] = category_counts.get(cc, 0) + 1` over a dict in
insertion order. -/
def bumpCount : List (String × Nat) → String → List (String × Nat)
  | [], c => [(c, 1)]
  | (k, n) :: rest, c =>
    if k = c then (k, n + 1) :: rest else (k, n) :: bumpCount rest c

/-- The category facet tally over the kept (pre-truncation) items, keyed
by `d.get("category_code") or ""`. -/
def categoryCounts (items : List Item) : List (String × Nat) :=
  items.foldl (fun acc d => bumpCount acc d.category_code) []

/-- The sort key of the price strategy:
`(price_value is None, price_value)`; all `None` keys are equal in the
source (tuple comparison never reaches the second component), modelled by
the constant `0`. -/
def priceKey (d : Item) : Bool × Int :=
  match d.price_value with
  | none => (true, 0)
  | some v => (false, v)

/-- The qty sort key, same null-flag shape. -/
def qtyKey (d : Item) : Bool × Int :=
  match d.qty_value with
  | none => (true, 0)
  | some v => (false, v)

/-- Lexicographic `≤` on `(Bool, Int)` keys (`False < True`, as in
Python). -/
def keyLE (x y : Bool × Int) : Prop :=
  x.1 = false ∧ y.1 = true ∨ x.1 = y.1 ∧ x.2 ≤ y.2

instance : DecidableRel keyLE := fun x y => by
  unfold keyLE; infer_instance

/-- The ranking relation actually passed to the stable sort, per strategy
and direction: `list.sort(key=…, reverse=…)` is the unique stable sort
for the corresponding total preorder, embedded as insertion sort. -/
def rankRel (i : SearchIntent) (a b : Item) : Prop :=
  match i.sort.sortBy with
  | .relevance => b.score ≤ a.score
  | .price =>
    match i.sort.direction with
    | .asc => keyLE (priceKey a) (priceKey b)
    | .desc => keyLE (priceKey b) (priceKey a)
  | .qty =>
    match i.sort.direction with
    | .asc => keyLE (qtyKey a) (qtyKey b)
    | .desc => keyLE (qtyKey b) (qtyKey a)

instance (i : SearchIntent) : DecidableRel (rankRel i) := fun a b => by
  unfold rankRel
  rcases i.sort.sortBy <;> try infer_instance
  all_goals rcases i.sort.direction <;> infer_instance

/-- The sorted kept items. -/
def rankedItems (ratio pratio : String → String → ℚ) (am : AliasMap)
    (db : List Row) (i : SearchIntent) : List Item :=
  (searchItems ratio pratio am db i).insertionSort (rankRel i)

/-- `limit_final = max(1, min(intent.limit, 50))`. -/
def limitFinal (i : SearchIntent) : Int := max 1 (min i.limit 50)

/-! ### Response envelope -/

/-- One entry of the `results` list of the response (key renames as in
the source: `qty`/`price` expose the parsed values). -/
structure ResultItem where
  name : String
  qty : Option Int
  price : Option Int
  category_code : String
  author_or_type_or_age : String
  translator_or_playtime : String
  publisher_or_brand : String
  group_main : String
  groupfamily : String
  system_code : Cell
  score : Int
deriving DecidableEq, Repr

def toResult (d : Item) : ResultItem :=
  { name := d.name
    qty := d.qty_value
    price := d.price_value
    category_code := d.category_code
    author_or_type_or_age := d.author_or_type_or_age
    translator_or_playtime := d.translator_or_playtime
    publisher_or_brand := d.publisher_or_brand
    group_main := d.group_main
    groupfamily := d.groupfamily
    system_code := d.system_code
    score := d.score }

/-- The response envelope (the `debug` payload is the compiled predicate
and configuration echo; its only intent-dependent parts are `build_sql`'s
output, covered separately). -/
structure Response where
  version : String
  query_text : String
  category_code_used : Option CatCode
  uploaded_only : Bool
  count : Nat
  category_distribution : List (String × Nat)
  results : List ResultItem
deriving DecidableEq, Repr

/-- The first statement of the endpoint:
`intent.query_text = normalize_query(intent.query_text or "")`. -/
def normIntent (intent : SearchIntent) : SearchIntent :=
  { intent with query_text := normalize_query intent.query_text }

/-- The `/search` endpoint: normalize the query text, fetch (with fuzzy
fallback), convert+post-filter, tally, rank, truncate, build the
envelope. -/
def search (ratio pratio : String → String → ℚ) (am : AliasMap)
    (db : List Row) (intent : SearchIntent) : Response :=
  let i := normIntent intent
  let items := searchItems ratio pratio am db i
  let final := (rankedItems ratio pratio am db i).take (limitFinal i).toNat
  { version := i.version
    query_text := i.query_text
    category_code_used := i.category_code
    uploaded_only := i.uploaded_only
    count := final.length
    category_distribution := categoryCounts items
    results := final.map toResult }

/-! ## Observables used in claim statements -/

/-- All parse failures (`none`) sit at the back of the list: once the
first `none` appears, everything after it is `none`. -/
def nullsLast (l : List (Option Int)) : Bool :=
  (l.dropWhile (fun x => x.isSome)).all (fun x => x = none)

/-- All parse failures sit at the front of the list. -/
def nullsFirst (l : List (Option Int)) : Bool :=
  (l.dropWhile (fun x => x = none)).all (fun x => x.isSome)

/-! ## Concrete fixtures (catalogs, intents and similarity functions used
to instantiate the claim theorems on closed inputs) -/

/-- A trivial similarity function (both external libraries abstracted). -/
def constRatio : String → String → ℚ := fun _ _ => 0

/-- An all-NULL catalog row. -/
def emptyRow : Row :=
  { name := .vnull, qty := .vnull, price := .vnull, category_code := .vnull,
    author_or_type_or_age := .vnull, translator_or_playtime := .vnull,
    publisher_or_brand := .vnull, group_main := .vnull, system_code := .vnull,
    groupfamily := .vnull }

/-- A row with a given raw price cell. -/
def rowWithPrice (c : Cell) : Row := { emptyRow with name := .vstr "n", price := c }

/-- The converted item of a row whose price field is the unparsable dash. -/
def itemNoPrice : Item := mkItem constRatio {} (rowWithPrice (.vstr "—"))

/-- An intent with only a lower price bound. -/
def intentMin1 : SearchIntent := { filters := { price := { min := some 1 } } }

/-- Two-row catalog: one parsable price, one unparsable. -/
def dbPrices : List Row := [rowWithPrice (.vstr "5"), rowWithPrice (.vstr "—")]

/-- Price sort, descending, no uploaded filter. -/
def intentPriceDesc : SearchIntent :=
  { uploaded_only := false, sort := { sortBy := .price, direction := .desc } }

/-- Price sort, ascending, no uploaded filter. -/
def intentPriceAsc : SearchIntent :=
  { uploaded_only := false, sort := { sortBy := .price, direction := .asc } }

/-- A row whose stored groupfamily is a single ZWNJ: SQLite `TRIM` keeps
it, display normalization erases it. -/
def rowZwnjGf : Row :=
  { emptyRow with name := .vstr "n", groupfamily := .vstr (String.mk [zwnjChar]) }

/-- A row whose stored groupfamily is ordinary text. -/
def rowOkGf : Row :=
  { emptyRow with name := .vstr "n", groupfamily := .vstr "ok" }

/-- A similarity oracle for the fuzzy-fallback scenario: scores the
normalized names `"aa"` at exactly the cutoff and `"ab"` just below it. -/
def ratioC4 : String → String → ℚ :=
  fun _ b => if b = "aa" then mkRat 72 100 else if b = "ab" then mkRat 71 100 else 0

/-- A row with a given name. -/
def rowNamed (s : String) : Row := { emptyRow with name := .vstr s }

/-- Candidates for the fuzzy-fallback scenario. -/
def dbC4 : List Row := [rowNamed "aa", rowNamed "ab"]

/-- An intent whose name filter matches nothing, forcing the fallback. -/
def intentC4 : SearchIntent :=
  { uploaded_only := false, filters := { name := { inc := ["xxx"] } } }

/-- An alias map whose two entries share the alias `"a"`. -/
def amOverlap : AliasMap := [("x", ["a"]), ("y", ["a"])]

/-- A well-formed alias map (pairwise disjoint normalized groups). -/
def amFaber : AliasMap := [("faber castell", ["فابر"])]

/-- An alias map whose canonical key normalizes to the empty string (a
single tatweel character, erased by the normalizer). -/
def amTatweel : AliasMap := [(String.mk [tatweelChar], ["فابر"])]

/-- An intent searching the publisher column for one term. -/
def intentPub (t : String) : SearchIntent :=
  { uploaded_only := false, filters := { publisher_or_brand := { inc := [t] } } }

/-- Single stationery category plus a pen keyword in the query. -/
def intentPen : SearchIntent :=
  { category_code := some (.single "s"), query_text := "قلم" }

/-- Single stationery category, no pen keyword. -/
def intentNoPen : SearchIntent :=
  { category_code := some (.single "s"), query_text := "کتاب" }

/-- Two explicit category codes plus a pen keyword. -/
def intentTwoCats : SearchIntent :=
  { category_code := some (.multi ["s", "x"]), query_text := "قلم" }

/-! ## Lemmas about the normalizer -/

/-- Every character emitted by `mapChar` is a fixed point of `mapChar`. -/
theorem mapChar_fixed {c c' : Char} (h : c' ∈ mapChar c) : mapChar c' = [c'] := by
  unfold mapChar at h
  split at h
  · simp at h; subst h; decide
  · split at h
    · simp at h; subst h; decide
    · split at h
      · simp at h; subst h; decide
      · split at h
        · simp at h
        · simp at h; subst h
          rename_i h1 h2 h3 h4
          unfold mapChar
          rw [if_neg h1, if_neg h2, if_neg h3, if_neg h4]

/-- `flatMap mapChar` is the identity on lists of `mapChar`-fixed
characters. -/
theorem flatMap_mapChar_fixed {l : List Char}
    (h : ∀ c ∈ l, mapChar c = [c]) : l.flatMap mapChar = l := by
  induction l with
  | nil => rfl
  | cons a t ih =>
    simp only [List.flatMap_cons]
    rw [h a (List.mem_cons_self a t), ih (fun c hc => h c (List.mem_cons_of_mem a hc))]
    rfl

/-- Characters of `collapseWs l` are a space or characters of `l`. -/
theorem mem_collapseWs {c : Char} : ∀ {l : List Char}, c ∈ collapseWs l → c = ' ' ∨ c ∈ l
  | [], h => by simp [collapseWs] at h
  | [a], h => by
    simp only [collapseWs] at h
    split at h
    · simp at h; exact Or.inl h
    · simp at h; exact Or.inr (by simp [h])
  | a :: b :: t, h => by
    simp only [collapseWs] at h
    split at h
    · rcases mem_collapseWs h with h' | h'
      · exact Or.inl h'
      · exact Or.inr (List.mem_cons_of_mem a h')
    · rcases List.mem_cons.1 h with h' | h'
      · split at h'
        · exact Or.inl h'
        · exact Or.inr (by simp [h'])
      · rcases mem_collapseWs h' with h'' | h''
        · exact Or.inl h''
        · exact Or.inr (List.mem_cons_of_mem a h'')

/-- Characters of `pyStrip l` are characters of `l`. -/
theorem mem_pyStrip {c : Char} {l : List Char} (h : c ∈ pyStrip l) : c ∈ l := by
  unfold pyStrip at h
  rw [List.mem_reverse] at h
  have h1 := (List.dropWhile_sublist pyIsSpace).mem h
  rw [List.mem_reverse] at h1
  exact (List.dropWhile_sublist pyIsSpace).mem h1

/-- The well-formedness invariant of collapsed text: every whitespace
character is an ASCII space and no two adjacent characters are both
whitespace. -/
def WsOk (l : List Char) : Prop :=
  (∀ c ∈ l, pyIsSpace c = true → c = ' ') ∧
  l.Chain' (fun a b => ¬(pyIsSpace a = true ∧ pyIsSpace b = true))

/-- The first character of `collapseWs (d :: t)`. -/
theorem collapseWs_cons_head (t : List Char) :
    ∀ d : Char, ∃ t', collapseWs (d :: t) = (if pyIsSpace d then ' ' else d) :: t' := by
  induction t with
  | nil =>
    intro d
    refine ⟨[], ?_⟩
    simp only [collapseWs]
    split <;> rfl
  | cons b t' ih =>
    intro d
    by_cases hd : pyIsSpace d = true
    · by_cases hb : pyIsSpace b = true
      · rcases ih b with ⟨u, hu⟩
        refine ⟨u, ?_⟩
        have : collapseWs (d :: b :: t') = collapseWs (b :: t') := by
          simp [collapseWs, hd, hb]
        rw [this, hu, if_pos hd, if_pos hb]
      · refine ⟨collapseWs (b :: t'), ?_⟩
        simp [collapseWs, hd, hb]
    · refine ⟨collapseWs (b :: t'), ?_⟩
      simp [collapseWs, hd]

/-- `collapseWs` establishes the invariant. -/
theorem collapseWs_wsOk : ∀ l : List Char, WsOk (collapseWs l)
  | [] => ⟨by simp [collapseWs], by simp [collapseWs]⟩
  | [a] => by
    constructor
    · intro c hc hsp
      simp only [collapseWs] at hc
      split at hc
      · simpa using hc
      · rename_i ha
        simp at hc; subst hc; simp [ha] at hsp
    · simp only [collapseWs]; split <;> simp
  | a :: b :: t => by
    have ih := collapseWs_wsOk (b :: t)
    by_cases hab : pyIsSpace a = true ∧ pyIsSpace b = true
    · have : collapseWs (a :: b :: t) = collapseWs (b :: t) := by
        simp [collapseWs, hab.1, hab.2]
      rw [this]; exact ih
    · have hcol : collapseWs (a :: b :: t)
          = (if pyIsSpace a then ' ' else a) :: collapseWs (b :: t) := by
        simp only [collapseWs]
        split
        · rename_i h'; exact absurd (by simpa using h') hab
        · rfl
      rw [hcol]
      rcases collapseWs_cons_head t b with ⟨u, hu⟩
      constructor
      · intro c hc hsp
        rcases List.mem_cons.1 hc with h' | h'
        · subst h'
          by_cases ha : pyIsSpace a = true
          · rw [if_pos ha]
          · rw [if_neg ha] at hsp
            exact absurd hsp (by simpa using ha)
        · exact ih.1 c h' hsp
      · rw [hu, List.chain'_cons]
        refine ⟨?_, by rw [← hu]; exact ih.2⟩
        rintro ⟨h1, h2⟩
        by_cases ha : pyIsSpace a = true
        · have hb : pyIsSpace b = true := by
            by_contra hb
            simp only [if_neg hb] at h2
            exact hb h2
          exact hab ⟨ha, hb⟩
        · simp [ha] at h1

/-- `collapseWs` is the identity on well-formed text. -/
theorem collapseWs_id_of_wsOk : ∀ {l : List Char}, WsOk l → collapseWs l = l
  | [], _ => rfl
  | [a], h => by
    simp only [collapseWs]
    split
    · rename_i ha
      have := h.1 a (by simp) ha
      simp [this]
    · rfl
  | a :: b :: t, h => by
    have hadj : ¬(pyIsSpace a = true ∧ pyIsSpace b = true) :=
      (List.chain'_cons.1 h.2).1
    have hrest : WsOk (b :: t) :=
      ⟨fun c hc => h.1 c (List.mem_cons_of_mem a hc), (List.chain'_cons.1 h.2).2⟩
    simp only [collapseWs]
    split
    · rename_i h'; exact absurd (by simpa using h') hadj
    · rw [collapseWs_id_of_wsOk hrest]
      congr 1
      split
      · rename_i ha; exact (h.1 a (by simp) ha).symm
      · rfl

/-- `dropWhile` is idempotent. -/
theorem dropWhile_idem (p : Char → Bool) :
    ∀ l : List Char, (l.dropWhile p).dropWhile p = l.dropWhile p
  | [] => rfl
  | a :: t => by
    by_cases h : p a = true
    · rw [List.dropWhile_cons, if_pos h, dropWhile_idem p t]
    · rw [List.dropWhile_cons, if_neg h, List.dropWhile_cons, if_neg h]

/-- `dropWhile` keeps the last element of a list it does not empty. -/
theorem dropWhile_getLast? (p : Char → Bool) :
    ∀ l : List Char, l.dropWhile p ≠ [] → (l.dropWhile p).getLast? = l.getLast?
  | [], h => absurd rfl h
  | a :: t, h => by
    by_cases hp : p a = true
    · rw [List.dropWhile_cons, if_pos hp] at h ⊢
      rw [dropWhile_getLast? p t h]
      cases t with
      | nil => simp at h
      | cons b t' => rw [List.getLast?_cons_cons]
    · rw [List.dropWhile_cons, if_neg hp]

/-- If the head of a list fails `p`, `dropWhile p` is the identity. -/
theorem dropWhile_eq_self_of_head (p : Char → Bool) (l : List Char)
    (h : ∀ c, l.head? = some c → p c = false) : l.dropWhile p = l := by
  cases l with
  | nil => rfl
  | cons a t =>
    rw [List.dropWhile_cons, if_neg]
    simp [h a rfl]

/-- The head of a `dropWhile p` result fails `p`. -/
theorem head?_dropWhile_false (p : Char → Bool) (l : List Char) {c : Char}
    (h : (l.dropWhile p).head? = some c) : p c = false := by
  have := List.head?_dropWhile_not p l
  rw [h] at this
  exact this

/-- `pyStrip` is idempotent. -/
theorem pyStrip_idem (l : List Char) : pyStrip (pyStrip l) = pyStrip l := by
  unfold pyStrip
  set u := l.dropWhile pyIsSpace with hu
  set v := u.reverse.dropWhile pyIsSpace with hv
  -- the head of `v.reverse` is the head of `u`, which fails `pyIsSpace`
  have hstep1 : v.reverse.dropWhile pyIsSpace = v.reverse := by
    apply dropWhile_eq_self_of_head
    intro c hc
    have hvne : v ≠ [] := by
      intro hnil
      rw [hnil] at hc; simp at hc
    have hlast : v.getLast? = u.reverse.getLast? := dropWhile_getLast? _ _ (hv ▸ hvne)
    have hhead : v.reverse.head? = some c := hc
    rw [List.head?_reverse, hlast, List.getLast?_reverse] at hhead
    exact head?_dropWhile_false pyIsSpace l (hu ▸ hhead)
  rw [hstep1, List.reverse_reverse, hv, dropWhile_idem]

/-- The normalizer output satisfies the collapsed-text invariant. -/
theorem normCore_wsOk (l : List Char) : WsOk (normCore l) := by
  unfold normCore pyStrip
  set m := collapseWs (l.flatMap mapChar) with hm
  have hw : WsOk m := collapseWs_wsOk _
  constructor
  · intro c hc hsp
    apply hw.1 c _ hsp
    rw [List.mem_reverse] at hc
    have := (List.dropWhile_sublist pyIsSpace).mem hc
    rw [List.mem_reverse] at this
    exact (List.dropWhile_sublist pyIsSpace).mem this
  · have h2 : m.dropWhile pyIsSpace <:+ m := List.dropWhile_suffix _
    have c2 : (m.dropWhile pyIsSpace).Chain'
        (fun a b => ¬(pyIsSpace a = true ∧ pyIsSpace b = true)) := hw.2.suffix h2
    have c3 : ((m.dropWhile pyIsSpace).reverse).Chain'
        (fun a b => ¬(pyIsSpace a = true ∧ pyIsSpace b = true)) := by
      rw [List.chain'_reverse]
      exact c2.imp (fun {a b} h => by
        intro hab
        exact h ⟨hab.2, hab.1⟩)
    have c4 := c3.suffix (List.dropWhile_suffix pyIsSpace)
    rw [List.chain'_reverse]
    exact c4.imp (fun {a b} h => by
      intro hab
      exact h ⟨hab.2, hab.1⟩)

/-- Every character of the normalizer output is `mapChar`-fixed. -/
theorem normCore_fixed {c : Char} {l : List Char} (h : c ∈ normCore l) :
    mapChar c = [c] := by
  unfold normCore at h
  have h1 := mem_pyStrip h
  rcases mem_collapseWs h1 with h2 | h2
  · subst h2; decide
  · rcases List.mem_flatMap.1 h2 with ⟨c0, _, hc0⟩
    exact mapChar_fixed hc0

/-- `normCore` is idempotent. -/
theorem normCore_idem (l : List Char) : normCore (normCore l) = normCore l := by
  conv_lhs => rw [normCore]
  rw [flatMap_mapChar_fixed (fun c hc => normCore_fixed hc)]
  rw [collapseWs_id_of_wsOk (by
    have h := normCore_wsOk l
    unfold normCore at h ⊢
    exact h)]
  unfold normCore
  exact pyStrip_idem _

/-- `normalize_persian` is idempotent (shared helper). -/
theorem normalize_persian_idem (s : String) :
    normalize_persian (normalize_persian s) = normalize_persian s := by
  unfold normalize_persian
  congr 1
  exact normCore_idem s.toList

/-- `normalize_query` output is a fixed point of `normalize_persian`. -/
theorem normalize_persian_of_normalize_query (s : String) :
    normalize_persian (normalize_query s) = normalize_query s := by
  unfold normalize_query
  split
  · rfl
  · exact normalize_persian_idem _

/-! ## Lemmas about parse_price -/

/-- Numeric bounds extracted from a digit character. -/
theorem pyIsDigit_bounds {c : Char} (h : pyIsDigit c = true) :
    (48 ≤ c.val.toNat ∧ c.val.toNat ≤ 57) ∨
    (0x660 ≤ c.val.toNat ∧ c.val.toNat ≤ 0x669) ∨
    (0x6F0 ≤ c.val.toNat ∧ c.val.toNat ≤ 0x6F9) := by
  unfold pyIsDigit digitVal? at h
  split at h
  · rename_i h1
    simp only [Bool.and_eq_true, decide_eq_true_eq, Char.le_def] at h1
    exact Or.inl ⟨h1.1, h1.2⟩
  · split at h
    · rename_i h2
      simp only [Bool.and_eq_true, decide_eq_true_eq] at h2
      exact Or.inr (Or.inl ⟨h2.1, h2.2⟩)
    · split at h
      · rename_i h3
        simp only [Bool.and_eq_true, decide_eq_true_eq] at h3
        exact Or.inr (Or.inr ⟨h3.1, h3.2⟩)
      · simp at h

/-- A digit is never Python whitespace. -/
theorem digit_not_ws {c : Char} (h : pyIsDigit c = true) : pyIsSpace c = false := by
  have hb := pyIsDigit_bounds h
  rw [← Bool.not_eq_true]
  intro hws
  unfold pyIsSpace at hws
  simp only [Bool.or_eq_true, Bool.and_eq_true, decide_eq_true_eq, Char.ext_iff,
    UInt32.ext_iff] at hws
  simp only [show ' '.val.toNat = 32 from rfl, show '\t'.val.toNat = 9 from rfl,
    show '\n'.val.toNat = 10 from rfl, show UInt32.toNat 13 = 13 from rfl,
    show UInt32.toNat 11 = 11 from rfl, show UInt32.toNat 12 = 12 from rfl,
    show UInt32.toNat 133 = 133 from rfl, show UInt32.toNat 160 = 160 from rfl,
    show UInt32.toNat 5760 = 5760 from rfl, show UInt32.toNat 8232 = 8232 from rfl,
    show UInt32.toNat 8233 = 8233 from rfl, show UInt32.toNat 8239 = 8239 from rfl,
    show UInt32.toNat 8287 = 8287 from rfl, show UInt32.toNat 12288 = 12288 from rfl,
    show ((28:UInt32) ≤ c.val) = ((28:Nat) ≤ c.val.toNat) from rfl,
    show (c.val ≤ (31:UInt32)) = (c.val.toNat ≤ 31) from rfl,
    show ((8192:UInt32) ≤ c.val) = ((8192:Nat) ≤ c.val.toNat) from rfl,
    show (c.val ≤ (8202:UInt32)) = (c.val.toNat ≤ 8202) from rfl] at hws
  omega

/-- A digit is never one of the separator characters removed by the
`replace` chain of `parse_price`. -/
theorem digit_not_sep {c : Char} (h : pyIsDigit c = true) :
    (c = ',' || c = arabicThousands || c = ' ') = false := by
  simp only [Bool.or_eq_false_iff, decide_eq_false_iff_not]
  refine ⟨⟨?_, ?_⟩, ?_⟩ <;> rintro rfl <;> revert h <;> decide

/-- Dropping a `q`-prefix does not change a `p`-filter when `q` and `p`
are disjoint. -/
theorem filter_dropWhile_disjoint (p q : Char → Bool)
    (hpq : ∀ c, q c = true → p c = false) :
    ∀ l : List Char, (l.dropWhile q).filter p = l.filter p
  | [] => rfl
  | a :: t => by
    by_cases hq : q a = true
    · rw [List.dropWhile_cons, if_pos hq, filter_dropWhile_disjoint p q hpq t,
        List.filter_cons, if_neg (by simp [hpq a hq])]
    · rw [List.dropWhile_cons, if_neg hq]

/-- Stripping whitespace does not change a filter disjoint from
whitespace. -/
theorem filter_pyStrip_disjoint (p : Char → Bool)
    (hp : ∀ c, pyIsSpace c = true → p c = false) (l : List Char) :
    (pyStrip l).filter p = l.filter p := by
  unfold pyStrip
  rw [List.filter_reverse, filter_dropWhile_disjoint p pyIsSpace hp,
    List.filter_reverse, List.reverse_reverse, filter_dropWhile_disjoint p pyIsSpace hp]

/-- A filter keeping only `p`-characters is unchanged by first removing
characters that are never `p`. -/
theorem filter_filter_disjoint (p q : Char → Bool)
    (hpq : ∀ c, p c = true → q c = false) (l : List Char) :
    (l.filter (fun c => !q c)).filter p = l.filter p := by
  induction l with
  | nil => rfl
  | cons a t ih =>
    by_cases hq : q a = true
    · have hp : p a = false := by
        by_cases hpa : p a = true
        · rw [hpq a hpa] at hq; exact absurd hq (by simp)
        · simpa using hpa
      have e1 : (a :: t).filter (fun c => !q c) = t.filter (fun c => !q c) := by
        rw [List.filter_cons, if_neg (by simp [hq])]
      rw [e1, ih, List.filter_cons, if_neg (by simp [hp])]
    · have hq' : q a = false := by simpa using hq
      have e1 : (a :: t).filter (fun c => !q c) = a :: t.filter (fun c => !q c) := by
        rw [List.filter_cons, if_pos (by simp [hq'])]
      rw [e1, List.filter_cons, List.filter_cons, ih]

/-- `takeWhile p` is the identity on lists of `p`-characters. -/
theorem takeWhile_filter_self (p : Char → Bool) (l : List Char) :
    (l.filter p).takeWhile p = l.filter p := by
  induction l with
  | nil => rfl
  | cons a t ih =>
    rw [List.filter_cons]
    by_cases hp : p a = true
    · rw [if_pos hp, List.takeWhile_cons, if_pos hp, ih]
    · rw [if_neg hp, ih]

/-- The string branch of `parse_price` agrees with the spec's reading
(strip separators / noise / non-digits, keep the leading digit run). -/
theorem parse_price_eq_spec (s : String) :
    parse_price (.vstr s) = spec_parse_price s := by
  have step1 :
      (pyStrip (s.toList.filter (fun c => !(c = ',' || c = arabicThousands || c = ' ')))).filter pyIsDigit
        = s.toList.filter pyIsDigit := by
    rw [filter_pyStrip_disjoint pyIsDigit (fun c hc => by
      by_cases hd : pyIsDigit c = true
      · rw [digit_not_ws hd] at hc; exact absurd hc (by simp)
      · simpa using hd)]
    exact filter_filter_disjoint pyIsDigit
      (fun c => (c = ',' || c = arabicThousands || c = ' ')) (fun c hc => digit_not_sep hc) s.toList
  simp only [parse_price, spec_parse_price]
  rw [step1, takeWhile_filter_self]

/-! ## Claim theorems -/

/-- C9: the text normalizer is idempotent — for every string `s`,
`normalize_persian (normalize_persian s) = normalize_persian s`. -/
theorem C9_normalize_idempotent (s : String) :
    normalize_persian (normalize_persian s) = normalize_persian s :=
  normalize_persian_idem s

/-- C2: `parse_price` strips thousands separators, currency noise and
non-digit characters and keeps the leading run of the remaining digits as
an integer; inputs without digits (such as `"—"` or `""`) and NULL give
no price; in particular `"12,500 تومان"` parses to `12500`. -/
theorem C2_parse_price (s : String) :
    parse_price (.vstr s) = spec_parse_price s ∧
    parse_price (.vstr "12,500 تومان") = some 12500 ∧
    parse_price (.vstr "—") = none ∧
    parse_price (.vstr "") = none ∧
    parse_price .vnull = none :=
  ⟨parse_price_eq_spec s, by decide, by decide, by decide, rfl⟩

/-- C10: the stock filter field is never read — intents differing only in
`filters.stock.in_stock_only` compile to the same predicate and produce
the same search response. -/
theorem C10_stock_filter_unread (ratio pratio : String → String → ℚ)
    (am : AliasMap) (db : List Row) (intent : SearchIntent) (b₁ b₂ : Option Bool) :
    build_sql am { intent with filters := { intent.filters with stock := ⟨b₁⟩ } }
        = build_sql am { intent with filters := { intent.filters with stock := ⟨b₂⟩ } } ∧
    search ratio pratio am db { intent with filters := { intent.filters with stock := ⟨b₁⟩ } }
        = search ratio pratio am db { intent with filters := { intent.filters with stock := ⟨b₂⟩ } } :=
  ⟨rfl, rfl⟩

/-- C6: for every intent (any caller-supplied limit), the number of
returned results is `min(count_before_truncation, clamp(limit, 1, 50))`,
where `count_before_truncation` is the size of the post-price-filter item
set, and the response's `count` equals that length. -/
theorem C6_limit_clamp (ratio pratio : String → String → ℚ) (am : AliasMap)
    (db : List Row) (intent : SearchIntent) :
    (search ratio pratio am db intent).results.length
        = min (searchItems ratio pratio am db (normIntent intent)).length
            (Int.toNat (max 1 (min intent.limit 50))) ∧
    (search ratio pratio am db intent).count
        = (search ratio pratio am db intent).results.length := by
  constructor
  · simp only [search, List.length_map, List.length_take]
    rw [show rankedItems ratio pratio am db (normIntent intent)
        = (searchItems ratio pratio am db (normIntent intent)).insertionSort
            (rankRel (normIntent intent)) from rfl]
    rw [(List.perm_insertionSort (rankRel (normIntent intent)) _).length_eq]
    rw [show limitFinal (normIntent intent) = max 1 (min intent.limit 50) from rfl]
    exact Nat.min_comm _ _
  · simp only [search, List.length_map]

/-- `!(v < m)` is `m ≤ v` on integers, at the `Bool` level. -/
theorem not_lt_decide (v m : Int) : (!decide (v < m)) = decide (m ≤ v) := by
  by_cases h : v < m
  · simp [h, show ¬m ≤ v by omega]
  · simp [h, show m ≤ v by omega]

/-- C7: row-local data problems never exceed their defined effect — with
no price bound every row passes the price filter; with any bound set an
unparsable price excludes the row and a parsable price passes iff it lies
within the bounds; and the only row-dropping stage between fetch and
truncation is the price filter (an unparsable quantity never excludes). -/
theorem C7_row_local_tolerance (ratio pratio : String → String → ℚ)
    (am : AliasMap) (db : List Row) (i : SearchIntent) (d : Item) :
    (i.filters.price.min = none → i.filters.price.max = none →
        passes_price_filter i d = true) ∧
    ((i.filters.price.min ≠ none ∨ i.filters.price.max ≠ none) →
        parse_price d.price = none → passes_price_filter i d = false) ∧
    (∀ v : Int, parse_price d.price = some v →
        passes_price_filter i d =
          ((match i.filters.price.min with
            | some m => decide (m ≤ v)
            | none => true) &&
           (match i.filters.price.max with
            | some m => decide (v ≤ m)
            | none => true))) ∧
    (∀ x : Item, x ∈ searchItems ratio pratio am db i ↔
        x ∈ (searchRows ratio am db i).map (mkItem pratio i) ∧
          passes_price_filter i x = true) := by
  refine ⟨?_, ?_, ?_, ?_⟩
  · intro hm hx
    unfold passes_price_filter
    rw [hm, hx]
  · intro hset hparse
    unfold passes_price_filter
    rcases hmin : i.filters.price.min with _ | m <;>
      rcases hmax : i.filters.price.max with _ | M
    · rw [hmin, hmax] at hset
      rcases hset with h | h <;> exact absurd rfl h
    all_goals rw [hparse]
  · intro v hparse
    unfold passes_price_filter
    rcases hmin : i.filters.price.min with _ | m <;>
      rcases hmax : i.filters.price.max with _ | M <;>
      rw [hparse] <;>
      simp only [not_lt_decide, Bool.and_true, Bool.true_and]
  · intro x
    unfold searchItems
    exact List.mem_filter

/-- C7 witness: with a lower bound set, the dash-priced row is excluded;
with no bound it passes. -/
theorem C7_row_local_tolerance_witness :
    passes_price_filter intentMin1 itemNoPrice = false ∧
    passes_price_filter {} itemNoPrice = true :=
  ⟨(C7_row_local_tolerance constRatio constRatio [] [] intentMin1 itemNoPrice).2.1
      (Or.inl (by decide)) (by decide),
   (C7_row_local_tolerance constRatio constRatio [] [] {} itemNoPrice).1 rfl rfl⟩

/-- C5: when the resolved category set is exactly the single stationery
code `"s"`, a pen keyword in the normalized query widens the compiled
category clause to match `{"s", "l"}` and without such a keyword the
clause matches only `"s"`; a resolved set of two or more codes is never
widened; and the emitted clauses have exactly those row semantics. -/
theorem C5_category_autoexpand :
    (∀ i : SearchIntent, rawCats i = ["s"] →
        ((penKeywordHit i = true → catClauses i = [.catIn ["s", "l"]]) ∧
         (penKeywordHit i = false → catClauses i = [.catEq "s"]))) ∧
    (∀ i : SearchIntent, 2 ≤ (rawCats i).length →
        catClauses i = [.catIn (rawCats i)]) ∧
    (∀ (r : Row) (c : String), r.category_code = .vstr c →
        (rowMatchesW r (.catIn ["s", "l"]) = (decide (c = "s") || decide (c = "l")) ∧
         rowMatchesW r (.catEq "s") = decide (c = "s"))) := by
  refine ⟨?_, ?_, ?_⟩
  · intro i h
    have htruthy : catTruthy i.category_code = true := by
      unfold rawCats at h
      unfold catTruthy
      rcases hcc : i.category_code with _ | cc
      · rw [hcc] at h; simp at h
      · rcases cc with s | l
        · rw [hcc] at h
          simp only [List.cons.injEq, and_true] at h
          simp only [decide_eq_true_eq]
          rintro rfl
          rw [show asciiLower (pyStripStr (normalize_persian "")) = "" from rfl] at h
          exact absurd h.symm (by decide)
        · rw [hcc] at h
          rcases l with _ | ⟨a, t⟩
          · simp at h
          · simp
    constructor
    · intro hk
      unfold catClauses
      rw [htruthy, if_pos rfl, h, hk]
      rfl
    · intro hk
      unfold catClauses
      rw [htruthy, if_pos rfl, h, hk]
      rfl
  · intro i hlen
    have htruthy : catTruthy i.category_code = true := by
      unfold rawCats at hlen
      unfold catTruthy
      rcases hcc : i.category_code with _ | cc
      · rw [hcc] at hlen; simp at hlen
      · rcases cc with s | l
        · rw [hcc] at hlen; simp at hlen
        · rw [hcc] at hlen
          rcases l with _ | ⟨a, t⟩
          · simp at hlen
          · simp
    have hne : decide (rawCats i = ["s"]) = false := by
      apply decide_eq_false
      intro heq
      rw [heq] at hlen
      simp at hlen
    unfold catClauses
    rw [htruthy, if_pos rfl]
    simp only [hne, Bool.false_and, if_neg (by simp : ¬(false = true))]
    obtain ⟨c1, t, hc⟩ : ∃ c1 t, rawCats i = c1 :: t := by
      cases h' : rawCats i with
      | nil => rw [h'] at hlen; simp at hlen
      | cons a t => exact ⟨a, t, rfl⟩
    obtain ⟨c2, t', hct⟩ : ∃ c2 t', t = c2 :: t' := by
      cases h2 : t with
      | nil => rw [h2] at hc; rw [hc] at hlen; simp at hlen
      | cons b u => exact ⟨b, u, rfl⟩
    rw [hc, hct]
  · intro r c hr
    constructor
    · show (["s", "l"].any fun v => cellEqStr v (r.get .cat)) = _
      rw [show r.get Col.cat = r.category_code from rfl, hr]
      show (cellEqStr "s" (.vstr c) || (cellEqStr "l" (.vstr c) || false)) = _
      show (decide (c = "s") || (decide (c = "l") || false)) = _
      simp
    · show cellEqStr "s" (r.get .cat) = _
      rw [show r.get Col.cat = r.category_code from rfl, hr]
      rfl

/-! ### Ranking-order lemmas (for C1) -/

/-- The lexicographic key order is total. -/
theorem keyLE_total (x y : Bool × Int) : keyLE x y ∨ keyLE y x := by
  rcases x with ⟨b1, v1⟩
  rcases y with ⟨b2, v2⟩
  unfold keyLE
  rcases b1 <;> rcases b2 <;> simp <;> omega

/-- The lexicographic key order is transitive. -/
theorem keyLE_trans {x y z : Bool × Int} (h1 : keyLE x y) (h2 : keyLE y z) :
    keyLE x z := by
  rcases x with ⟨b1, v1⟩
  rcases y with ⟨b2, v2⟩
  rcases z with ⟨b3, v3⟩
  unfold keyLE at *
  rcases b1 <;> rcases b2 <;> rcases b3 <;> simp_all <;> omega

/-- A true null flag propagates along `keyLE`. -/
theorem keyLE_fst {x y : Bool × Int} (h : keyLE x y) (hx : x.1 = true) :
    y.1 = true := by
  rcases h with ⟨h1, _⟩ | ⟨h1, h2⟩
  · rw [hx] at h1; cases h1
  · rw [← h1, hx]

/-- The null flag of the price key. -/
theorem priceKey_fst (d : Item) : (priceKey d).1 = true ↔ d.price_value = none := by
  unfold priceKey
  cases d.price_value <;> simp

/-- The null flag of the qty key. -/
theorem qtyKey_fst (d : Item) : (qtyKey d).1 = true ↔ d.qty_value = none := by
  unfold qtyKey
  cases d.qty_value <;> simp

/-- The ranking relation is total for every strategy. -/
theorem rankRel_total (i : SearchIntent) (a b : Item) :
    rankRel i a b ∨ rankRel i b a := by
  cases h1 : i.sort.sortBy with
  | relevance => simp only [rankRel, h1]; exact le_total _ _
  | price =>
    cases h2 : i.sort.direction with
    | asc => simp only [rankRel, h1, h2]; exact keyLE_total _ _
    | desc => simp only [rankRel, h1, h2]; exact keyLE_total _ _
  | qty =>
    cases h2 : i.sort.direction with
    | asc => simp only [rankRel, h1, h2]; exact keyLE_total _ _
    | desc => simp only [rankRel, h1, h2]; exact keyLE_total _ _

/-- The ranking relation is transitive for every strategy. -/
theorem rankRel_trans (i : SearchIntent) {a b c : Item}
    (hab : rankRel i a b) (hbc : rankRel i b c) : rankRel i a c := by
  cases h1 : i.sort.sortBy with
  | relevance =>
    simp only [rankRel, h1] at hab hbc ⊢
    omega
  | price =>
    cases h2 : i.sort.direction with
    | asc => simp only [rankRel, h1, h2] at hab hbc ⊢; exact keyLE_trans hab hbc
    | desc => simp only [rankRel, h1, h2] at hab hbc ⊢; exact keyLE_trans hbc hab
  | qty =>
    cases h2 : i.sort.direction with
    | asc => simp only [rankRel, h1, h2] at hab hbc ⊢; exact keyLE_trans hab hbc
    | desc => simp only [rankRel, h1, h2] at hab hbc ⊢; exact keyLE_trans hbc hab

/-- The truncated ranked item list is pairwise ordered by the ranking
relation. -/
theorem final_pairwise (ratio pratio : String → String → ℚ) (am : AliasMap)
    (db : List Row) (i : SearchIntent) :
    ((rankedItems ratio pratio am db i).take (limitFinal i).toNat).Pairwise
      (rankRel i) := by
  haveI : IsTotal Item (rankRel i) := ⟨rankRel_total i⟩
  haveI : IsTrans Item (rankRel i) := ⟨fun _ _ _ => rankRel_trans i⟩
  exact (List.sorted_insertionSort (rankRel i) _).sublist
    (List.take_sublist _ _)

/-- The exposed price column of the results is the `price_value` column
of the truncated ranked items. -/
theorem results_price_map (ratio pratio : String → String → ℚ) (am : AliasMap)
    (db : List Row) (intent : SearchIntent) :
    (search ratio pratio am db intent).results.map (fun x => x.price)
      = ((rankedItems ratio pratio am db (normIntent intent)).take
          (limitFinal (normIntent intent)).toNat).map (fun d => d.price_value) := by
  simp only [search, List.map_map]
  rfl

/-- The exposed qty column of the results is the `qty_value` column of
the truncated ranked items. -/
theorem results_qty_map (ratio pratio : String → String → ℚ) (am : AliasMap)
    (db : List Row) (intent : SearchIntent) :
    (search ratio pratio am db intent).results.map (fun x => x.qty)
      = ((rankedItems ratio pratio am db (normIntent intent)).take
          (limitFinal (normIntent intent)).toNat).map (fun d => d.qty_value) := by
  simp only [search, List.map_map]
  rfl

/-- Pairwise null-propagation forward gives `nullsLast`. -/
theorem nullsLast_of_pairwise :
    ∀ {l : List (Option Int)},
      l.Pairwise (fun x y => x = none → y = none) → nullsLast l = true
  | [], _ => rfl
  | a :: t, h => by
    rcases List.pairwise_cons.1 h with ⟨hhead, htail⟩
    unfold nullsLast
    cases a with
    | some v =>
      rw [List.dropWhile_cons, if_pos (by simp)]
      exact nullsLast_of_pairwise htail
    | none =>
      rw [List.dropWhile_cons, if_neg (by simp)]
      simp only [List.all_cons, Bool.and_eq_true]
      refine ⟨by simp, ?_⟩
      rw [List.all_eq_true]
      intro x hx
      simpa using hhead x hx rfl

/-- Pairwise null-propagation backward gives `nullsFirst`. -/
theorem nullsFirst_of_pairwise :
    ∀ {l : List (Option Int)},
      l.Pairwise (fun x y => y = none → x = none) → nullsFirst l = true
  | [], _ => rfl
  | a :: t, h => by
    rcases List.pairwise_cons.1 h with ⟨hhead, htail⟩
    unfold nullsFirst
    cases a with
    | none =>
      rw [List.dropWhile_cons, if_pos (by simp)]
      exact nullsFirst_of_pairwise htail
    | some v =>
      rw [List.dropWhile_cons, if_neg (by simp)]
      simp only [List.all_cons, Bool.and_eq_true]
      refine ⟨by simp, ?_⟩
      rw [List.all_eq_true]
      intro x hx
      cases hx' : x with
      | none => exact absurd (hhead x hx hx') (by simp)
      | some w => simp

/-! ### Provenance of pipeline rows (for C3) -/

/-- Every row the pipeline continues with comes from the catalog and
satisfies the `uploaded_only` clause block (both on the primary and on
the fuzzy-fallback path). -/
theorem searchRows_mem {ratio : String → String → ℚ} {am : AliasMap}
    {db : List Row} {i : SearchIntent} {r : Row}
    (h : r ∈ searchRows ratio am db i) :
    r ∈ db ∧ matchesAll (uploadedClauses i) r = true := by
  unfold searchRows at h
  split at h
  · -- fallback path
    unfold fuzzyRows at h
    rcases List.mem_map.1 h with ⟨p, hp, hpr⟩
    have hp1 : p ∈ fuzzySorted ratio db i (nameSeed i) :=
      (List.take_sublist _ _).mem hp
    have hp2 : p ∈ fuzzyScored ratio db i (nameSeed i) :=
      (List.perm_insertionSort _ _).mem_iff.1 hp1
    rcases List.mem_filterMap.1 hp2 with ⟨c, hc, hfc⟩
    have hcr : c = r := by
      dsimp only at hfc
      split at hfc
      · cases hfc
      · split at hfc
        · rw [Option.some.injEq] at hfc
          rw [← hfc] at hpr
          exact hpr
        · cases hfc
    subst hcr
    have hc1 : c ∈ db.filter (matchesAll (fallbackClauses i)) :=
      (List.take_sublist _ _).mem hc
    rcases List.mem_filter.1 hc1 with ⟨hcdb, hcall⟩
    refine ⟨hcdb, ?_⟩
    unfold fallbackClauses at hcall
    unfold matchesAll at hcall ⊢
    simp only [List.all_append, Bool.and_eq_true] at hcall
    exact hcall.1
  · -- primary path
    unfold fetchPrimary at h
    have h1 : r ∈ db.filter (matchesAll (build_sql am i)) :=
      (List.take_sublist _ _).mem h
    rcases List.mem_filter.1 h1 with ⟨hdb, hall⟩
    refine ⟨hdb, ?_⟩
    unfold build_sql at hall
    unfold matchesAll at hall ⊢
    simp only [List.all_append, Bool.and_eq_true] at hall
    exact hall.1.1.1.1.1.1.1.1

/-- Every item of the truncated ranked results is the converted copy of
some pipeline row. -/
theorem results_mem {ratio pratio : String → String → ℚ} {am : AliasMap}
    {db : List Row} {intent : SearchIntent} {x : ResultItem}
    (h : x ∈ (search ratio pratio am db intent).results) :
    ∃ r ∈ searchRows ratio am db (normIntent intent),
      x = toResult (mkItem pratio (normIntent intent) r) := by
  simp only [search] at h
  rcases List.mem_map.1 h with ⟨d, hd, hdx⟩
  have hd1 : d ∈ rankedItems ratio pratio am db (normIntent intent) :=
    (List.take_sublist _ _).mem hd
  have hd2 : d ∈ searchItems ratio pratio am db (normIntent intent) :=
    (List.perm_insertionSort _ _).mem_iff.1 hd1
  rcases List.mem_filter.1 hd2 with ⟨hdm, _⟩
  rcases List.mem_map.1 hdm with ⟨r, hr, hrd⟩
  exact ⟨r, hr, by rw [← hdx, ← hrd]⟩

/-- C1 counterexample: with `sort.by = price` and `direction = desc`, the
row with no parsable price is placed before the priced row, so the
null-last rule does not hold for the descending direction. -/
theorem C1_nulls_desc_counterexample :
    (search constRatio constRatio [] dbPrices intentPriceDesc).results.map
        (fun x => x.price) = [none, some 5] ∧
    nullsLast ((search constRatio constRatio [] dbPrices intentPriceDesc).results.map
        (fun x => x.price)) = false := by
  constructor <;> decide

/-- C1 (amended): under price or qty sorting, rows with no parsable
price/quantity are placed after all parsable rows when the direction is
`asc`, and before all parsable rows when the direction is `desc`. -/
theorem C1_nulls_placement (ratio pratio : String → String → ℚ) (am : AliasMap)
    (db : List Row) (intent : SearchIntent) :
    (intent.sort.sortBy = .price → intent.sort.direction = .asc →
        nullsLast ((search ratio pratio am db intent).results.map (fun x => x.price)) = true) ∧
    (intent.sort.sortBy = .price → intent.sort.direction = .desc →
        nullsFirst ((search ratio pratio am db intent).results.map (fun x => x.price)) = true) ∧
    (intent.sort.sortBy = .qty → intent.sort.direction = .asc →
        nullsLast ((search ratio pratio am db intent).results.map (fun x => x.qty)) = true) ∧
    (intent.sort.sortBy = .qty → intent.sort.direction = .desc →
        nullsFirst ((search ratio pratio am db intent).results.map (fun x => x.qty)) = true) := by
  have hsorteq : (normIntent intent).sort = intent.sort := rfl
  have hp := final_pairwise ratio pratio am db (normIntent intent)
  refine ⟨?_, ?_, ?_, ?_⟩
  · intro h1 h2
    rw [results_price_map]
    apply nullsLast_of_pairwise
    apply hp.map
    intro a b hab
    simp only [rankRel, hsorteq, h1, h2] at hab
    intro ha
    exact (priceKey_fst b).1 (keyLE_fst hab ((priceKey_fst a).2 ha))
  · intro h1 h2
    rw [results_price_map]
    apply nullsFirst_of_pairwise
    apply hp.map
    intro a b hab
    simp only [rankRel, hsorteq, h1, h2] at hab
    intro hb
    exact (priceKey_fst a).1 (keyLE_fst hab ((priceKey_fst b).2 hb))
  · intro h1 h2
    rw [results_qty_map]
    apply nullsLast_of_pairwise
    apply hp.map
    intro a b hab
    simp only [rankRel, hsorteq, h1, h2] at hab
    intro ha
    exact (qtyKey_fst b).1 (keyLE_fst hab ((qtyKey_fst a).2 ha))
  · intro h1 h2
    rw [results_qty_map]
    apply nullsFirst_of_pairwise
    apply hp.map
    intro a b hab
    simp only [rankRel, hsorteq, h1, h2] at hab
    intro hb
    exact (qtyKey_fst a).1 (keyLE_fst hab ((qtyKey_fst b).2 hb))

/-- C1 witness: ascending price sort on the two-row catalog indeed puts
the unparsable-price row last. -/
theorem C1_nulls_placement_witness :
    nullsLast ((search constRatio constRatio [] dbPrices intentPriceAsc).results.map
        (fun x => x.price)) = true :=
  (C1_nulls_placement constRatio constRatio [] dbPrices intentPriceAsc).1 rfl rfl

/-- C3 counterexample: a stored groupfamily consisting of a single ZWNJ
passes the `uploaded_only` SQL clauses (SQLite `TRIM` strips only ASCII
spaces), yet its normalized display copy — the `groupfamily` value the
response exposes — is empty. -/
theorem C3_groupfamily_counterexample :
    (search constRatio constRatio [] [rowZwnjGf] {}).uploaded_only = true ∧
    (search constRatio constRatio [] [rowZwnjGf] {}).count = 1 ∧
    (search constRatio constRatio [] [rowZwnjGf] {}).results.map
        (fun x => x.groupfamily) = [""] := by
  refine ⟨rfl, by decide, by decide⟩

/-- C3 (amended): for every intent with `uploaded_only = true`, every
returned row (primary or fallback path) comes from a stored row whose
groupfamily is non-NULL and non-empty after trimming ASCII spaces, and
the exposed groupfamily is the normalized display copy of that stored
field — which can itself be empty when the stored value consists only of
characters the normalizer erases (ZWNJ, tatweel, whitespace). -/
theorem C3_groupfamily_amended (ratio pratio : String → String → ℚ)
    (am : AliasMap) (db : List Row) (intent : SearchIntent)
    (hup : intent.uploaded_only = true) :
    ∀ x ∈ (search ratio pratio am db intent).results,
      ∃ r ∈ db,
        x = toResult (mkItem pratio (normIntent intent) r) ∧
        r.groupfamily ≠ .vnull ∧
        cellTrimNotEmpty r.groupfamily = true ∧
        x.groupfamily = normalize_persian (cellText r.groupfamily) := by
  intro x hx
  rcases results_mem hx with ⟨r, hr, hxr⟩
  rcases searchRows_mem hr with ⟨hrdb, hrall⟩
  have hup' : (normIntent intent).uploaded_only = true := hup
  unfold uploadedClauses at hrall
  rw [if_pos hup'] at hrall
  unfold matchesAll at hrall
  simp only [List.all_cons, List.all_nil, Bool.and_eq_true] at hrall
  obtain ⟨h1, h2, -⟩ := hrall
  refine ⟨r, hrdb, hxr, ?_, h2, ?_⟩
  · have h1' : decide (r.get .groupfamily ≠ .vnull) = true := h1
    simpa using h1'
  · rw [hxr]; rfl

/-- C3 witness: on a one-row catalog with ordinary groupfamily text, the
amended statement instantiates at the single returned row. -/
theorem C3_groupfamily_amended_witness :
    ∃ r ∈ [rowOkGf],
      toResult (mkItem constRatio (normIntent {}) rowOkGf)
          = toResult (mkItem constRatio (normIntent {}) r) ∧
      r.groupfamily ≠ .vnull ∧
      cellTrimNotEmpty r.groupfamily = true ∧
      (toResult (mkItem constRatio (normIntent {}) rowOkGf)).groupfamily
          = normalize_persian (cellText r.groupfamily) :=
  C3_groupfamily_amended constRatio constRatio [] [rowOkGf] {} rfl _ (by decide)

/-- The name seed is a fixed point of the normalizer. -/
theorem nameSeed_normalized (intent : SearchIntent) :
    normalize_persian (nameSeed (normIntent intent)) = nameSeed (normIntent intent) := by
  unfold nameSeed
  cases (normIntent intent).filters.name.inc with
  | cons t ts => exact normalize_persian_of_normalize_query t
  | nil => exact normalize_persian_of_normalize_query intent.query_text

/-- C4: the fuzzy fallback replaces the primary rows exactly when the
primary fetch is empty and the name seed (first name-include term if
present, else the normalized query) is non-empty; a candidate row is
scored into the fallback set iff it was fetched and its normalized-name
similarity to the seed is at least `0.72` (inclusive); the scored list is
sorted by descending similarity and at most `1200` rows are kept. The
hypothesis `hr` is the relevant fact about the external
`difflib.SequenceMatcher.ratio`: against an empty string it scores `0`. -/
theorem C4_fuzzy_fallback (ratio : String → String → ℚ)
    (hr : ∀ s : String, s ≠ "" → ratio s "" = 0)
    (am : AliasMap) (db : List Row) (intent : SearchIntent) :
    ((fetchPrimary am db (normIntent intent) ≠ [] ∨ nameSeed (normIntent intent) = "") →
        searchRows ratio am db (normIntent intent) = fetchPrimary am db (normIntent intent)) ∧
    (fetchPrimary am db (normIntent intent) = [] → nameSeed (normIntent intent) ≠ "" →
        searchRows ratio am db (normIntent intent)
            = fuzzyRows ratio db (normIntent intent) (nameSeed (normIntent intent)) ∧
        (∀ r : Row,
            (∃ sc, (sc, r) ∈
                fuzzyScored ratio db (normIntent intent) (nameSeed (normIntent intent))) ↔
            (r ∈ fallbackCands db (normIntent intent) ∧
             mkRat 72 100 ≤ similarity ratio (nameSeed (normIntent intent))
                (normalize_query (cellTextOrEmpty r.name)))) ∧
        (fuzzySorted ratio db (normIntent intent) (nameSeed (normIntent intent))).Pairwise
            (fun a b => b.1 ≤ a.1) ∧
        (fuzzyRows ratio db (normIntent intent) (nameSeed (normIntent intent))).length ≤ 1200) := by
  constructor
  · intro h
    unfold searchRows
    rw [if_neg]
    intro hcond
    rw [Bool.and_eq_true] at hcond
    rcases h with h | h
    · exact h (List.isEmpty_iff.1 hcond.1)
    · rw [decide_eq_true_eq] at hcond
      exact hcond.2 h
  · intro h0 hs
    refine ⟨?_, ?_, ?_, ?_⟩
    · unfold searchRows
      rw [if_pos]
      rw [Bool.and_eq_true, decide_eq_true_eq]
      exact ⟨List.isEmpty_iff.2 h0, hs⟩
    · intro r
      constructor
      · rintro ⟨sc, hmem⟩
        rcases List.mem_filterMap.1 hmem with ⟨c, hc, hfc⟩
        dsimp only at hfc
        split at hfc
        · cases hfc
        · rename_i hthr
          split at hfc
          · rw [Option.some.injEq, Prod.mk.injEq] at hfc
            rw [← hfc.2]
            rename_i hge
            exact ⟨hc, hge⟩
          · cases hfc
      · rintro ⟨hcand, hsim⟩
        by_cases hpn : normalize_query (cellTextOrEmpty r.name) = ""
        · exfalso
          rw [hpn] at hsim
          unfold similarity at hsim
          rw [nameSeed_normalized] at hsim
          rw [show normalize_persian "" = "" from rfl] at hsim
          rw [hr _ hs] at hsim
          exact absurd hsim (by decide)
        · refine ⟨similarity ratio (nameSeed (normIntent intent))
            (normalize_query (cellTextOrEmpty r.name)), ?_⟩
          apply List.mem_filterMap.2
          refine ⟨r, hcand, ?_⟩
          dsimp only
          rw [if_neg hpn, if_pos hsim]
    · haveI : IsTotal (ℚ × Row) (fun a b => b.1 ≤ a.1) := ⟨fun a b => le_total b.1 a.1⟩
      haveI : IsTrans (ℚ × Row) (fun a b => b.1 ≤ a.1) :=
        ⟨fun _ _ _ h1 h2 => le_trans h2 h1⟩
      exact List.sorted_insertionSort _ _
    · unfold fuzzyRows
      rw [List.length_map, List.length_take]
      exact Nat.min_le_left _ _

/-- C4 witness: with the primary fetch empty and seed `"xxx"`, the
candidate scored exactly `0.72` is kept and the candidate scored `0.71`
is dropped. -/
theorem C4_fuzzy_fallback_witness :
    searchRows ratioC4 [] dbC4 (normIntent intentC4)
        = fuzzyRows ratioC4 dbC4 (normIntent intentC4) (nameSeed (normIntent intentC4)) ∧
    (∃ sc, (sc, rowNamed "aa") ∈
        fuzzyScored ratioC4 dbC4 (normIntent intentC4) (nameSeed (normIntent intentC4))) ∧
    ¬(∃ sc, (sc, rowNamed "ab") ∈
        fuzzyScored ratioC4 dbC4 (normIntent intentC4) (nameSeed (normIntent intentC4))) := by
  have h := (C4_fuzzy_fallback ratioC4 (fun s _ => rfl) [] dbC4 intentC4).2
    (by decide) (by decide)
  refine ⟨h.1, ?_, ?_⟩
  · exact (h.2.1 (rowNamed "aa")).2 ⟨by decide, by decide⟩
  · intro hex
    have := (h.2.1 (rowNamed "ab")).1 hex
    exact absurd this.2 (by decide)

/-! ### Alias lookup lemmas (for C8) -/

/-- In a map with pairwise-disjoint normalized groups, the first-match
scan finds exactly the entry that contains the term. -/
theorem find_entry_of_disjoint :
    ∀ {am : AliasMap},
      am.Pairwise (fun e1 e2 => ∀ t ∈ normGroup e1, t ∉ normGroup e2) →
      ∀ {e : String × List String}, e ∈ am →
      ∀ {t : String}, t ∈ normGroup e →
      am.find? (fun e' => t ∈ normGroup e') = some e
  | [], _, _, he, _, _ => absurd he (by simp)
  | e0 :: rest, hdisj, e, he, t, ht => by
    rcases List.pairwise_cons.1 hdisj with ⟨hhead, htail⟩
    rcases List.mem_cons.1 he with rfl | he'
    · exact List.find?_cons_of_pos _ (by simpa using ht)
    · have h0 : t ∉ normGroup e0 := by
        intro h0'
        exact hhead e he' t h0' ht
      rw [List.find?_cons_of_neg _ (by simpa using h0)]
      exact find_entry_of_disjoint htail he' ht

/-- Under disjointness, expanding any term of a group returns that
group's raw `canonical :: aliases` list. -/
theorem expand_eq_of_mem {am : AliasMap}
    (hdisj : am.Pairwise (fun e1 e2 => ∀ t ∈ normGroup e1, t ∉ normGroup e2))
    {k : String} {A : List String} (hmem : (k, A) ∈ am) {t : String}
    (ht : asciiLower (normalize_persian t) ∈ normGroup (k, A)) :
    expand_brand_terms am t = k :: A := by
  show (match am.find? (fun e => decide (asciiLower (normalize_persian t) ∈ normGroup e)) with
        | some e => e.1 :: e.2
        | none => [t]) = k :: A
  rw [find_entry_of_disjoint hdisj hmem ht]

/-- The canonical form is a member of its own normalized group. -/
theorem self_mem_normGroup (k : String) (A : List String) :
    asciiLower (normalize_persian k) ∈ normGroup (k, A) := by
  unfold normGroup
  exact List.mem_map.2 ⟨k, by simp, rfl⟩

/-- Every alias is a member of its entry's normalized group. -/
theorem alias_mem_normGroup {a : String} (k : String) {A : List String}
    (ha : a ∈ A) : asciiLower (normalize_persian a) ∈ normGroup (k, A) := by
  unfold normGroup
  exact List.mem_map.2 ⟨a, by simp [ha], rfl⟩

/-- The normalized form of a term addresses the same group as the raw
term (the include loop normalizes before expanding). -/
theorem norm_addresses_same {t : String} {k : String} {A : List String}
    (ht : asciiLower (normalize_persian t) ∈ normGroup (k, A)) :
    asciiLower (normalize_persian (normalize_persian t)) ∈ normGroup (k, A) := by
  rw [normalize_persian_idem]
  exact ht

/-- The publisher include clause for one term, under brand expansion. -/
theorem includeClauses_pub {am : AliasMap} (hne : am.isEmpty = false)
    {t : String} (ht : normalize_persian t ≠ "") {grp : List String}
    (hexp : expand_brand_terms am (normalize_persian t) = grp) :
    includeClauses am .publisher [t]
      = [.likeAny .publisher (grp.map (fun term => like_pattern (normalize_persian term)))] := by
  unfold includeClauses
  rw [List.filterMap_cons, List.filterMap_nil]
  dsimp only
  rw [if_neg ht]
  rw [show (Col.publisher = Col.publisher && !am.isEmpty) = !am.isEmpty by simp]
  rw [hne]
  show [WClause.likeAny .publisher ((expand_brand_terms am (normalize_persian t)).map
      (fun term => like_pattern (normalize_persian term)))] = _
  rw [hexp]

/-- C8 counterexample: the first-match scan is not symmetric — with two
entries sharing the alias `"a"`, expanding `"y"` and expanding its alias
`"a"` return different groups and compile different predicates; and a
canonical key that normalizes to the empty string produces no publisher
clause at all while its alias does. -/
theorem C8_alias_symmetry_counterexample :
    (("y", ["a"]) ∈ amOverlap ∧ "a" ∈ (["a"] : List String) ∧
      expand_brand_terms amOverlap "y" = ["y", "a"] ∧
      expand_brand_terms amOverlap "a" = ["x", "a"] ∧
      build_sql amOverlap (intentPub "y") ≠ build_sql amOverlap (intentPub "a")) ∧
    ((String.mk [tatweelChar], ["فابر"]) ∈ amTatweel ∧
      build_sql amTatweel (intentPub (String.mk [tatweelChar]))
        ≠ build_sql amTatweel (intentPub "فابر")) := by
  constructor
  · exact ⟨by decide, by decide, by decide, by decide, by decide⟩
  · exact ⟨by decide, by decide⟩

/-- C8 (amended): when the normalized term groups of the loaded alias map
are pairwise disjoint, alias lookup is symmetric — for every canonical
`k` with alias list `A`, expanding `k` or any `a ∈ A` returns the same
full group `k :: A`, and (provided neither form normalizes to the empty
string, which would suppress its include clause) publisher searches for
`k` and for `a` compile to identical predicates; a term matching no entry
expands to the singleton containing only itself. -/
theorem C8_alias_symmetry (am : AliasMap)
    (hdisj : am.Pairwise (fun e1 e2 => ∀ t ∈ normGroup e1, t ∉ normGroup e2)) :
    (∀ k A a, (k, A) ∈ am → a ∈ A →
      expand_brand_terms am k = k :: A ∧
      expand_brand_terms am a = k :: A ∧
      (normalize_persian k ≠ "" → normalize_persian a ≠ "" →
        ∀ intent : SearchIntent,
          build_sql am { intent with filters := { intent.filters with
              publisher_or_brand := { inc := [k], exc := intent.filters.publisher_or_brand.exc } } }
            = build_sql am { intent with filters := { intent.filters with
              publisher_or_brand := { inc := [a], exc := intent.filters.publisher_or_brand.exc } } })) ∧
    (∀ t, (∀ e ∈ am, asciiLower (normalize_persian t) ∉ normGroup e) →
      expand_brand_terms am t = [t]) := by
  constructor
  · intro k A a hmem ha
    have hne : am.isEmpty = false := by
      cases am with
      | nil => exact absurd hmem (by simp)
      | cons e rest => rfl
    refine ⟨expand_eq_of_mem hdisj hmem (self_mem_normGroup k A),
            expand_eq_of_mem hdisj hmem (alias_mem_normGroup k ha), ?_⟩
    intro hk hha intent
    have hexpk : expand_brand_terms am (normalize_persian k) = k :: A :=
      expand_eq_of_mem hdisj hmem (norm_addresses_same (self_mem_normGroup k A))
    have hexpa : expand_brand_terms am (normalize_persian a) = k :: A :=
      expand_eq_of_mem hdisj hmem (norm_addresses_same (alias_mem_normGroup k ha))
    set i1 : SearchIntent := { intent with filters := { intent.filters with
      publisher_or_brand := { inc := [k], exc := intent.filters.publisher_or_brand.exc } } }
    set i2 : SearchIntent := { intent with filters := { intent.filters with
      publisher_or_brand := { inc := [a], exc := intent.filters.publisher_or_brand.exc } } }
    have hup : uploadedClauses i1 = uploadedClauses i2 := rfl
    have hcat : catClauses i1 = catClauses i2 := rfl
    have hfree : freeTextClauses i1 = freeTextClauses i2 := rfl
    have hpub : applyTextFilter am .publisher i1.filters.publisher_or_brand
        = applyTextFilter am .publisher i2.filters.publisher_or_brand := by
      unfold applyTextFilter
      have e1 : i1.filters.publisher_or_brand
          = { inc := [k], exc := intent.filters.publisher_or_brand.exc } := rfl
      have e2 : i2.filters.publisher_or_brand
          = { inc := [a], exc := intent.filters.publisher_or_brand.exc } := rfl
      rw [e1, e2]
      rw [includeClauses_pub hne hk hexpk, includeClauses_pub hne hha hexpa]
    unfold build_sql
    rw [hup, hcat, hfree, hpub]
  · intro t hnone
    show (match am.find? (fun e => decide (asciiLower (normalize_persian t) ∈ normGroup e)) with
          | some e => e.1 :: e.2
          | none => [t]) = [t]
    rw [List.find?_eq_none.2 (fun e he => by simpa using hnone e he)]

/-- C8 witness: on a one-entry alias map, canonical and alias compile to
the same predicate. -/
theorem C8_alias_symmetry_witness :
    expand_brand_terms amFaber "faber castell" = ["faber castell", "فابر"] ∧
    expand_brand_terms amFaber "فابر" = ["faber castell", "فابر"] ∧
    build_sql amFaber (intentPub "faber castell") = build_sql amFaber (intentPub "فابر") ∧
    expand_brand_terms amFaber "zz" = ["zz"] := by
  have h := (C8_alias_symmetry amFaber (by decide)).1 "faber castell" ["فابر"] "فابر"
    (by decide) (by decide)
  have hs := (C8_alias_symmetry amFaber (by decide)).2 "zz" (by decide)
  exact ⟨h.1, h.2.1, h.2.2 (by decide) (by decide) { uploaded_only := false }, hs⟩

/-- C5 witness: the single code `"s"` with the keyword `"قلم"` compiles
to the two-code clause, without it to the equality clause, and two
explicit codes stay unexpanded. -/
theorem C5_category_autoexpand_witness :
    catClauses intentPen = [.catIn ["s", "l"]] ∧
    catClauses intentNoPen = [.catEq "s"] ∧
    catClauses intentTwoCats = [.catIn ["s", "x"]] :=
  ⟨(C5_category_autoexpand.1 intentPen (by decide)).1 (by decide),
   (C5_category_autoexpand.1 intentNoPen (by decide)).2 (by decide),
   by
     have h := C5_category_autoexpand.2.1 intentTwoCats (by decide)
     rw [h]
     decide⟩

end StockApi
